import Mathlib

/-!
# Line-ending handling of the HCL printer (`hcl/printer/printer.go`)

A shallow embedding of `useCRLF`, `Config.Fprint` and `Format`, together with
the two standard-library byte operations they call (`bytes.IndexByte`,
`bytes.Replace`).  The parser (`parser.Parse`) and the node renderer
(`p.collectComments`, `p.output`, `p.unindent`) live outside `printer.go`; they
enter every definition as parameters `parse` and `render`.
-/

namespace HclPrinter

/-- A byte of a Go `[]byte`. -/
abbrev Byte := Fin 256

/-- The byte `'\n'`. -/
def LF : Byte := 10

/-- The byte `'\r'`. -/
def CR : Byte := 13

/-- The bytes of an ASCII string literal, as in Go's `[]byte("...")`. -/
def ascii (s : String) : List Byte :=
  s.data.map (fun c => Fin.ofNat c.toNat)

/-! ## Standard-library operations used by `printer.go` -/

/-- `bytes.IndexByte(b, c)`: the index of the first instance of `c` in `b`,
or `-1` if `c` is not present in `b`. -/
def bytes.IndexByte (b : List Byte) (c : Byte) : Int :=
  if c ∈ b then (b.indexOf c : Int) else -1

/-- The scan of `bytes.Replace` for a non-empty `old`: left to right, each
non-overlapping instance of `old` is replaced by `new`.  `lim` is the number of
replacements still allowed (`none` for no limit); `skip` counts the bytes of the
instance just matched that are still to be dropped from the input. -/
def bytes.replaceScan (old new : List Byte) : Option Nat → Nat → List Byte → List Byte
  | _, _, [] => []
  | lim, skip + 1, _ :: rest => bytes.replaceScan old new lim skip rest
  | lim, 0, b :: rest =>
    if lim ≠ some 0 ∧ old.isPrefixOf (b :: rest) = true then
      new ++ bytes.replaceScan old new (lim.map (fun k => k - 1)) (old.length - 1) rest
    else
      b :: bytes.replaceScan old new lim 0 rest

/-- `bytes.Replace(s, old, new, n)` for a non-empty `old` (both call sites of
`printer.go` pass a non-empty literal): a copy of `s` with the first `n`
non-overlapping instances of `old` replaced by `new`; if `n < 0` there is no
limit on the number of replacements. -/
def bytes.Replace (s old new : List Byte) (n : Int) : List Byte :=
  bytes.replaceScan old new (if n < 0 then none else some n.toNat) 0 s

/-! ## `printer.go` -/

/-- A Config node controls the output of Fprint. -/
structure Config where
  /-- if set, it will use spaces instead of tabs for alignment -/
  SpacesWidth : Int
  deriving DecidableEq, Repr

/-- `var DefaultConfig = Config{SpacesWidth: 2}`. -/
def DefaultConfig : Config := { SpacesWidth := 2 }

/-- `func useCRLF(src []byte) bool`. -/
def useCRLF (src : List Byte) : Bool :=
  -- find the first newline.
  let idx := bytes.IndexByte src LF
  -- if the first newline was "\r\n", use that for the rest of the file.
  if idx > 0 ∧ src[(idx - 1).toNat]? = some CR then
    true
  else
    false

/-- An `io.Writer` with state `σ` and errors `ε`.  `Write` gives the state after
the call and the error it returned (`none` for `nil`).  `Flush` is `some` exactly
when the dynamic type of the writer is a non-nil `*tabwriter.Writer`, and is then
its `Flush` method. -/
structure Writer (σ ε : Type) where
  Write : σ → List Byte → σ × Option ε
  Flush : Option (σ → σ × Option ε)

/-- A method call made on the output sink. -/
inductive SinkCall where
  | write (p : List Byte)
  | flush
  deriving DecidableEq, Repr

/-- What a call of `Config.Fprint` leaves behind: the returned `error`, the
state of the sink, and the calls made on the sink, in order. -/
structure FprintResult (σ ε : Type) where
  err : Option ε
  sink : σ
  calls : List SinkCall

/-- `func (c *Config) Fprint(output io.Writer, node ast.Node) error`.
`render c node` stands for `p.unindent(p.output(node))` of the printer `p`
built from `c` after `p.collectComments(node)`. -/
def Config.Fprint {σ ε ν : Type} (render : Config → ν → List Byte) (c : Config)
    (output : Writer σ ε) (s : σ) (node : ν) : FprintResult σ ε :=
  let text := render c node
  match output.Write s text with
  | (s₁, some err) => { err := some err, sink := s₁, calls := [.write text] }
  | (s₁, none) =>
    -- flush tabwriter, if any
    match output.Flush with
    | some fl =>
      let r := fl s₁
      { err := r.2, sink := r.1, calls := [.write text, .flush] }
    | none => { err := none, sink := s₁, calls := [.write text] }

/-- `func Fprint(output io.Writer, node ast.Node) error`: calls
`Config.Fprint` with default settings. -/
def Fprint {σ ε ν : Type} (render : Config → ν → List Byte)
    (output : Writer σ ε) (s : σ) (node : ν) : FprintResult σ ε :=
  DefaultConfig.Fprint render output s node

/-- A `*bytes.Buffer` as an `io.Writer`: `Write` appends and its error is
always `nil`; it is not a `*tabwriter.Writer`. -/
def bufferWriter (ε : Type) : Writer (List Byte) ε where
  Write := fun buf p => (buf ++ p, none)
  Flush := none

/-- The first statement pair of `Format` after the CRLF probe:
`bytes.Replace(src, []byte("\r\n"), []byte("\n"), -1)`. -/
def normalize (src : List Byte) : List Byte :=
  bytes.Replace src [CR, LF] [LF] (-1)

/-- The last replacement of `Format`:
`bytes.Replace(out, []byte("\n"), []byte("\r\n"), -1)`. -/
def restore (out : List Byte) : List Byte :=
  bytes.Replace out [LF] [CR, LF] (-1)

/-- `func Format(src []byte) ([]byte, error)`.  The result is the pair Go
returns; a `nil` slice is the empty list. -/
def Format {ε ν : Type} (parse : List Byte → Except ε ν)
    (render : Config → ν → List Byte) (src : List Byte) : List Byte × Option ε :=
  -- record if we want the output to keep CRLF line endings
  let crlf := useCRLF src
  -- normalize all line endings
  let src := normalize src
  match parse src with
  | .error err => ([], some err)
  | .ok node =>
    let r := DefaultConfig.Fprint render (bufferWriter ε) [] node
    match r.err with
    | some err => ([], some err)
    | none =>
      -- Add trailing newline to result
      let buf := r.sink ++ [LF]
      let out := buf
      let out := if crlf then restore out else out
      (out, none)

/-! ## Properties of byte strings used by the statements -/

/-- Every `'\n'` of `s` is immediately preceded by `'\r'`. -/
def LFAfterCR (s : List Byte) : Prop :=
  ∀ i, i < s.length → s[i]? = some LF → 0 < i ∧ s[i - 1]? = some CR

instance (s : List Byte) : Decidable (LFAfterCR s) := by
  unfold LFAfterCR
  infer_instance

/-- The text `s` contains a `"\r\n"` pair. -/
def HasCRLF (s : List Byte) : Prop := [CR, LF] <:+: s

instance (s : List Byte) : Decidable (HasCRLF s) := by
  unfold HasCRLF
  infer_instance

/-- The text `s` contains `"\r\r\n"`. -/
def HasCRCRLF (s : List Byte) : Prop := [CR, CR, LF] <:+: s

instance (s : List Byte) : Decidable (HasCRCRLF s) := by
  unfold HasCRCRLF
  infer_instance

/-- The text `s` ends with the byte `'\n'`. -/
def EndsWithLF (s : List Byte) : Prop := s.getLast? = some LF

instance (s : List Byte) : Decidable (EndsWithLF s) := by
  unfold EndsWithLF
  infer_instance

/-- The line terminator `Format` writes last: `"\r\n"` when the CRLF probe of
the source is true, `"\n"` otherwise. -/
def terminator (src : List Byte) : List Byte :=
  if useCRLF src then [CR, LF] else [LF]

/-! ## Stand-ins for the external parser and renderer

`Format` is parametric in the parser and the renderer.  To evaluate it at an
explicit source, `acceptAll` and `printing text` supply the one fact that
`printer.go` does not decide: the text the renderer prints for that source.
The pair `verbatimParse`, `verbatimRender` only discharges hypotheses at
concrete inputs: the parser keeps the text as the node, the renderer prints
the node back without its final newline. -/

/-- The errors of the stand-in parsers and sinks. -/
inductive SampleError where
  | parseError
  | writeError
  deriving DecidableEq, Repr

/-- A parser that accepts the source at hand; the node carries nothing. -/
def acceptAll (_ : List Byte) : Except SampleError Unit :=
  .ok ()

/-- A renderer whose printed text is `text`: the bytes that
`p.unindent(p.output(node))` yields for the source at hand. -/
def printing (text : List Byte) (_ : Config) (_ : Unit) : List Byte :=
  text

/-- A parser that accepts every text; the node is the text itself. -/
def verbatimParse (src : List Byte) : Except SampleError (List Byte) :=
  .ok src

/-- A parser that rejects exactly the text `"a = \n"` (an assignment without
a value) and accepts every other text as `verbatimParse` does. -/
def strictParse (src : List Byte) : Except SampleError (List Byte) :=
  if src = ascii "a = \n" then .error .parseError else .ok src

/-- A renderer that prints the node's text without one final `'\n'`. -/
def verbatimRender (_ : Config) (node : List Byte) : List Byte :=
  if node.getLast? = some LF then node.dropLast else node

/-- A `*tabwriter.Writer` sink whose `Write` fails and leaves the sink as it
was; its `Flush` would succeed. -/
def brokenTabwriter : Writer (List Byte) SampleError where
  Write := fun buf _ => (buf, some .writeError)
  Flush := some (fun buf => (buf, none))

/-! ## Equations of the two replacements -/

theorem normalize_nil : normalize [] = [] := by
  simp [normalize, bytes.Replace, bytes.replaceScan]

theorem normalize_crlf (r : List Byte) : normalize (CR :: LF :: r) = LF :: normalize r := by
  simp [normalize, bytes.Replace, bytes.replaceScan, List.isPrefixOf]

theorem normalize_cons (b : Byte) (r : List Byte) (h : ¬ (b = CR ∧ r.head? = some LF)) :
    normalize (b :: r) = b :: normalize r := by
  cases r with
  | nil => simp [normalize, bytes.Replace, bytes.replaceScan, List.isPrefixOf]
  | cons c r =>
    have h2 : ¬ (CR = b ∧ LF = c) := by
      rintro ⟨rfl, rfl⟩
      exact h (by simp)
    simp [normalize, bytes.Replace, bytes.replaceScan, List.isPrefixOf, h2]

theorem restore_nil : restore [] = [] := by
  simp [restore, bytes.Replace, bytes.replaceScan]

theorem restore_lf (r : List Byte) : restore (LF :: r) = CR :: LF :: restore r := by
  simp [restore, bytes.Replace, bytes.replaceScan, List.isPrefixOf]

theorem restore_cons (b : Byte) (r : List Byte) (h : b ≠ LF) :
    restore (b :: r) = b :: restore r := by
  simp [restore, bytes.Replace, bytes.replaceScan, List.isPrefixOf, Ne.symm h]

theorem CR_ne_LF : CR ≠ LF := by decide

/-- Case analysis along the scan of `normalize`: the empty text, a text that
starts with a CRLF pair, and a text whose first byte does not start such a pair. -/
theorem crlf_induction {P : List Byte → Prop} (nil : P [])
    (pair : ∀ r, P r → P (CR :: LF :: r))
    (other : ∀ b r, ¬ (b = CR ∧ r.head? = some LF) → P r → P (b :: r)) :
    ∀ s, P s := by
  have key : ∀ n (s : List Byte), s.length ≤ n → P s := by
    intro n
    induction n with
    | zero =>
      intro s hs
      have : s = [] := List.length_eq_zero.mp (Nat.le_zero.mp hs)
      subst this
      exact nil
    | succ n ih =>
      intro s hs
      match s, hs with
      | [], _ => exact nil
      | b :: r, hs =>
        by_cases h : b = CR ∧ r.head? = some LF
        · obtain ⟨rfl, hr⟩ := h
          match r, hr, hs with
          | c :: r', hr, hs =>
            simp at hr
            subst hr
            refine pair r' (ih r' ?_)
            simp at hs
            omega
        · refine other b r h (ih r ?_)
          simp at hs
          omega
  intro s
  exact key s.length s (Nat.le_refl _)

theorem restore_head_ne_lf (s : List Byte) : (restore s).head? ≠ some LF := by
  cases s with
  | nil => simp [restore_nil]
  | cons b r =>
    by_cases h : b = LF
    · subst h
      rw [restore_lf]
      simp [CR_ne_LF]
    · rw [restore_cons b r h]
      simpa using h

theorem normalize_restore (out : List Byte) : normalize (restore out) = out := by
  induction out with
  | nil => rw [restore_nil, normalize_nil]
  | cons b r ih =>
    by_cases h : b = LF
    · subst h
      rw [restore_lf, normalize_crlf, ih]
    · rw [restore_cons b r h, normalize_cons b _ (fun hh => restore_head_ne_lf r hh.2), ih]

/-! ## The CRLF probe -/

theorem exists_first_lf {s : List Byte} (h : LF ∈ s) :
    ∃ pre post, s = pre ++ LF :: post ∧ LF ∉ pre := by
  induction s with
  | nil => simp at h
  | cons b r ih =>
    by_cases hb : b = LF
    · exact ⟨[], r, by simp [hb], by simp⟩
    · have hr : LF ∈ r := by
        rcases List.mem_cons.mp h with h1 | h1
        · exact absurd h1.symm hb
        · exact h1
      obtain ⟨pre, post, hs, hp⟩ := ih hr
      refine ⟨b :: pre, post, by simp [hs], ?_⟩
      simp only [List.mem_cons, not_or]
      exact ⟨fun hh => hb hh.symm, hp⟩

theorem indexByte_first (pre post : List Byte) (h : LF ∉ pre) :
    bytes.IndexByte (pre ++ LF :: post) LF = (pre.length : Int) := by
  unfold bytes.IndexByte
  rw [if_pos (by simp), List.indexOf_append_of_not_mem h, List.indexOf_cons_self]
  simp

theorem indexByte_absent (s : List Byte) (h : LF ∉ s) : bytes.IndexByte s LF = -1 := by
  unfold bytes.IndexByte
  rw [if_neg h]

theorem useCRLF_absent (s : List Byte) (h : LF ∉ s) : useCRLF s = false := by
  simp [useCRLF, indexByte_absent s h]

theorem useCRLF_at_first_lf (pre post : List Byte) (h : LF ∉ pre) :
    useCRLF (pre ++ LF :: post) = decide (pre.getLast? = some CR) := by
  unfold useCRLF
  rw [indexByte_first pre post h]
  rcases List.eq_nil_or_concat pre with rfl | ⟨L, b, rfl⟩
  · simp
  · have hlen : ((((L.concat b).length : Nat) : Int) - 1).toNat = L.length := by
      simp
    simp only [hlen]
    have hget : (L.concat b ++ LF :: post)[L.length]? = some b := by
      rw [List.concat_eq_append, List.append_assoc,
        List.getElem?_append_right (Nat.le_refl _)]
      simp
    rw [hget]
    simp [List.concat_eq_append]

theorem useCRLF_iff (src : List Byte) :
    useCRLF src = true ↔ ∃ pre post, src = pre ++ CR :: LF :: post ∧ LF ∉ pre := by
  constructor
  · intro h
    by_cases hm : LF ∈ src
    · obtain ⟨p, post, rfl, hp⟩ := exists_first_lf hm
      rw [useCRLF_at_first_lf p post hp] at h
      have hl : p.getLast? = some CR := by simpa using h
      rcases List.eq_nil_or_concat p with rfl | ⟨L, b, rfl⟩
      · simp at hl
      · rw [List.concat_eq_append, List.getLast?_concat] at hl
        have hb : b = CR := by simpa using hl
        subst hb
        refine ⟨L, post, by simp [List.concat_eq_append], ?_⟩
        intro hL
        exact hp (by simp [List.concat_eq_append, hL])
    · rw [useCRLF_absent src hm] at h
      exact absurd h (by simp)
  · rintro ⟨pre, post, rfl, hp⟩
    have hp2 : LF ∉ pre ++ [CR] := by
      simp only [List.mem_append, List.mem_singleton, not_or]
      exact ⟨hp, fun hh => CR_ne_LF hh.symm⟩
    have := useCRLF_at_first_lf (pre ++ [CR]) post hp2
    simp only [List.append_assoc, List.singleton_append] at this
    rw [this]
    simp

/-! ## Newlines guarded by a carriage return -/

theorem lfAfterCR_iff (s : List Byte) :
    LFAfterCR s ↔ ∀ pre post, s = pre ++ LF :: post → pre.getLast? = some CR := by
  constructor
  · intro h pre post hs
    subst hs
    have hget : (pre ++ LF :: post)[pre.length]? = some LF := by
      rw [List.getElem?_append_right (Nat.le_refl _)]
      simp
    obtain ⟨hpos, hprev⟩ := h pre.length (by simp) hget
    rw [List.getElem?_append_left (by omega)] at hprev
    rw [List.getLast?_eq_getElem?]
    exact hprev
  · intro h i hi hget
    have hi2 : s[i] = LF := by
      rw [List.getElem?_eq_getElem hi] at hget
      exact Option.some.inj hget
    have hs : s = s.take i ++ LF :: s.drop (i + 1) := by
      rw [← hi2, ← List.drop_eq_getElem_cons hi, List.take_append_drop]
    have hl := h _ _ hs
    rw [List.getLast?_eq_getElem?, List.length_take, Nat.min_eq_left (Nat.le_of_lt hi)] at hl
    have hpos : 0 < i := by
      rcases Nat.eq_zero_or_pos i with h0 | h0
      · subst h0
        simp at hl
      · exact h0
    refine ⟨hpos, ?_⟩
    rw [List.getElem?_take_of_lt (by omega)] at hl
    exact hl

theorem restore_split (s : List Byte) :
    ∀ pre post, restore s = pre ++ LF :: post → pre.getLast? = some CR := by
  induction s with
  | nil =>
    intro pre post h
    rw [restore_nil] at h
    simp at h
  | cons b r ih =>
    intro pre post h
    by_cases hb : b = LF
    · subst hb
      rw [restore_lf] at h
      match pre, h with
      | [], h =>
        simp at h
        exact absurd h.1 CR_ne_LF
      | [c], h =>
        simp at h
        simp [h.1]
      | c :: d :: pre2, h =>
        simp at h
        have := ih pre2 post h.2.2
        rw [List.getLast?_cons_cons, List.getLast?_cons, this]
        rfl
    · rw [restore_cons b r hb] at h
      match pre, h with
      | [], h =>
        simp at h
        exact absurd h.1 hb
      | c :: pre2, h =>
        simp at h
        have := ih pre2 post h.2
        rw [List.getLast?_cons, this]
        rfl

theorem lfAfterCR_restore (s : List Byte) : LFAfterCR (restore s) :=
  (lfAfterCR_iff _).mpr (restore_split s)

theorem count_lf_restore (s : List Byte) : (restore s).count LF = s.count LF := by
  induction s with
  | nil => rw [restore_nil]
  | cons b r ih =>
    by_cases hb : b = LF
    · subst hb
      rw [restore_lf, List.count_cons_of_ne (Ne.symm CR_ne_LF), List.count_cons_self,
        List.count_cons_self, ih]
    · rw [restore_cons b r hb, List.count_cons_of_ne (Ne.symm hb),
        List.count_cons_of_ne (Ne.symm hb), ih]

theorem restore_append (s t : List Byte) : restore (s ++ t) = restore s ++ restore t := by
  induction s with
  | nil => simp [restore_nil]
  | cons b r ih =>
    by_cases hb : b = LF
    · subst hb
      simp [restore_lf, ih]
    · simp [restore_cons b _ hb, ih]

theorem restore_newline : restore [LF] = [CR, LF] := by
  rw [restore_lf, restore_nil]

/-! ## Unfolding `Format` -/

theorem fprint_buffer {ε ν : Type} (render : Config → ν → List Byte) (c : Config)
    (buf : List Byte) (node : ν) :
    c.Fprint render (bufferWriter ε) buf node
      = { err := none, sink := buf ++ render c node, calls := [.write (render c node)] } := by
  simp [Config.Fprint, bufferWriter]

theorem format_error {ε ν : Type} (parse : List Byte → Except ε ν)
    (render : Config → ν → List Byte) (src : List Byte) (e : ε)
    (h : parse (normalize src) = .error e) :
    Format parse render src = ([], some e) := by
  simp [Format, h]

theorem format_ok {ε ν : Type} (parse : List Byte → Except ε ν)
    (render : Config → ν → List Byte) (src : List Byte) (node : ν)
    (h : parse (normalize src) = .ok node) :
    Format parse render src
      = (if useCRLF src then restore (render DefaultConfig node ++ [LF])
          else render DefaultConfig node ++ [LF], none) := by
  simp [Format, h, fprint_buffer]

theorem format_success {ε ν : Type} (parse : List Byte → Except ε ν)
    (render : Config → ν → List Byte) (src out : List Byte)
    (h : Format parse render src = (out, none)) :
    ∃ node, parse (normalize src) = .ok node := by
  cases hp : parse (normalize src) with
  | error e =>
    rw [format_error parse render src e hp] at h
    simp at h
  | ok node => exact ⟨node, rfl⟩

/-! ## What normalization leaves behind -/

theorem singleton_prefix_iff (a : Byte) (l : List Byte) : [a] <+: l ↔ l.head? = some a := by
  cases l with
  | nil => simp
  | cons b r =>
    simp only [List.cons_prefix_cons, List.nil_prefix, and_true, List.head?_cons,
      Option.some.injEq]
    exact eq_comm

theorem normalize_head (s : List Byte) :
    (normalize s).head? = some LF ↔ s.head? = some LF ∨ [CR, LF] <+: s := by
  cases s with
  | nil => simp [normalize_nil]
  | cons b r =>
    by_cases h : b = CR ∧ r.head? = some LF
    · obtain ⟨rfl, hr⟩ := h
      match r, hr with
      | c :: r2, hr =>
        simp at hr
        subst hr
        rw [normalize_crlf]
        simp
    · rw [normalize_cons b r h]
      simp only [List.head?_cons, Option.some.injEq, List.cons_prefix_cons]
      constructor
      · intro hb
        exact Or.inl hb
      · rintro (hb | ⟨hb, hp⟩)
        · exact hb
        · exact absurd ⟨hb.symm, (singleton_prefix_iff LF r).mp hp⟩ h

theorem hasCRLF_normalize (s : List Byte) : HasCRLF (normalize s) ↔ HasCRCRLF s := by
  unfold HasCRLF HasCRCRLF
  induction s using crlf_induction with
  | nil => simp [normalize_nil]
  | pair r ih =>
    rw [normalize_crlf, List.infix_cons_iff, ih, List.infix_cons_iff, List.infix_cons_iff]
    simp [CR_ne_LF]
  | other b r h ih =>
    rw [normalize_cons b r h, List.infix_cons_iff, ih, List.infix_cons_iff]
    have hp : [CR, LF] <+: b :: normalize r ↔ [CR, CR, LF] <+: b :: r := by
      simp only [List.cons_prefix_cons]
      constructor
      · rintro ⟨hb, hl⟩
        refine ⟨hb, ?_⟩
        rcases (normalize_head r).mp ((singleton_prefix_iff LF _).mp hl) with h1 | h1
        · exact absurd ⟨hb.symm, h1⟩ h
        · simpa using h1
      · rintro ⟨hb, hl⟩
        refine ⟨hb, ?_⟩
        exact (singleton_prefix_iff LF _).mpr ((normalize_head r).mpr (Or.inr (by simpa using hl)))
    rw [hp]

theorem normalize_eq_self (s : List Byte) (h : ¬ HasCRLF s) : normalize s = s := by
  unfold HasCRLF at h
  induction s using crlf_induction with
  | nil => exact normalize_nil
  | pair r _ => exact absurd (List.prefix_iff_eq_append.mpr (by simp) |>.isInfix) h
  | other b r hb ih =>
    rw [normalize_cons b r hb, ih (fun hr => h (List.infix_cons hr))]

theorem useCRLF_of_lfAfterCR (s : List Byte) (hm : LF ∈ s) (h : LFAfterCR s) :
    useCRLF s = true := by
  obtain ⟨pre, post, rfl, hp⟩ := exists_first_lf hm
  rw [useCRLF_at_first_lf pre post hp]
  simpa using (lfAfterCR_iff _).mp h pre post rfl

theorem endsWithLF_restore (p : List Byte) : EndsWithLF (restore p) ↔ EndsWithLF p := by
  unfold EndsWithLF
  rcases List.eq_nil_or_concat p with rfl | ⟨q, b, rfl⟩
  · simp [restore_nil]
  · rw [List.concat_eq_append, restore_append]
    by_cases hb : b = LF
    · subst hb
      rw [restore_newline]
      simp
    · rw [restore_cons b [] hb, restore_nil]
      simp

theorem restore_eq_flatMap (s : List Byte) :
    restore s = s.flatMap (fun b => if b = LF then [CR, LF] else [b]) := by
  induction s with
  | nil => simp [restore_nil]
  | cons b r ih =>
    by_cases hb : b = LF
    · subst hb
      simp [restore_lf, ih]
    · simp [restore_cons b r hb, ih, hb]

theorem lf_mem_restore (s : List Byte) (h : LF ∈ s) : LF ∈ restore s := by
  have h1 : 0 < (restore s).count LF := by
    rw [count_lf_restore]
    exact List.count_pos_iff.mpr h
  exact List.count_pos_iff.mp h1

theorem hasCRLF_of_useCRLF (s : List Byte) (h : useCRLF s = true) : HasCRLF s := by
  obtain ⟨pre, post, rfl, _⟩ := (useCRLF_iff s).mp h
  exact ⟨pre, post, by simp⟩

theorem useCRLF_of_crlf_free (s : List Byte) (h : ¬ HasCRLF s) : useCRLF s = false := by
  cases hu : useCRLF s with
  | false => rfl
  | true => exact absurd (hasCRLF_of_useCRLF s hu) h

theorem fprint_write_failed {σ ε ν : Type} (render : Config → ν → List Byte) (c : Config)
    (w : Writer σ ε) (s s1 : σ) (node : ν) (e : ε)
    (h : w.Write s (render c node) = (s1, some e)) :
    c.Fprint render w s node
      = { err := some e, sink := s1, calls := [.write (render c node)] } := by
  simp [Config.Fprint, h]

theorem fprint_flushed {σ ε ν : Type} (render : Config → ν → List Byte) (c : Config)
    (w : Writer σ ε) (s s1 : σ) (node : ν) (fl : σ → σ × Option ε)
    (h : w.Write s (render c node) = (s1, none)) (hf : w.Flush = some fl) :
    c.Fprint render w s node
      = { err := (fl s1).2, sink := (fl s1).1, calls := [.write (render c node), .flush] } := by
  simp [Config.Fprint, h, hf]

theorem fprint_unflushed {σ ε ν : Type} (render : Config → ν → List Byte) (c : Config)
    (w : Writer σ ε) (s s1 : σ) (node : ν)
    (h : w.Write s (render c node) = (s1, none)) (hf : w.Flush = none) :
    c.Fprint render w s node
      = { err := none, sink := s1, calls := [.write (render c node)] } := by
  simp [Config.Fprint, h, hf]

theorem cr_mem_of_hasCRLF (s : List Byte) (h : HasCRLF s) : CR ∈ s := by
  obtain ⟨pre, post, rfl⟩ := h
  simp

theorem format_lfAfterCR_of_probe {ε ν : Type} (parse : List Byte → Except ε ν)
    (render : Config → ν → List Byte) (src out : List Byte)
    (hs : Format parse render src = (out, none)) (hc : useCRLF src = true) :
    LFAfterCR out := by
  obtain ⟨node, hn⟩ := format_success parse render src out hs
  rw [format_ok parse render src node hn, hc] at hs
  have ho : out = restore (render DefaultConfig node ++ [LF]) := by
    simpa using (congrArg Prod.fst hs).symm
  rw [ho]
  exact lfAfterCR_restore _

/-! ## The claims -/

/-- C3: `useCRLF src` is true exactly when `src` contains a `'\n'` and the byte
immediately before the first `'\n'` is `'\r'`; it is false when `src` has no
`'\n'`, when `src` is empty, when the first `'\n'` is at index 0, and when the
first `'\n'` is preceded by a byte other than `'\r'`. -/
theorem useCRLF_first_newline (src : List Byte) :
    (useCRLF src = true ↔ ∃ pre post, src = pre ++ CR :: LF :: post ∧ LF ∉ pre) ∧
    (LF ∉ src → useCRLF src = false) ∧
    useCRLF [] = false ∧
    (∀ rest, src = LF :: rest → useCRLF src = false) ∧
    (∀ pre b post, src = pre ++ b :: LF :: post → LF ∉ pre → b ≠ LF → b ≠ CR →
      useCRLF src = false) := by
  refine ⟨useCRLF_iff src, useCRLF_absent src, by decide, ?_, ?_⟩
  · rintro rest rfl
    have := useCRLF_at_first_lf [] rest (by simp)
    simpa using this
  · rintro pre b post rfl hp hb hc
    have hp2 : LF ∉ pre ++ [b] := by
      simp only [List.mem_append, List.mem_singleton, not_or]
      exact ⟨hp, fun hh => hb hh.symm⟩
    have := useCRLF_at_first_lf (pre ++ [b]) post hp2
    simp only [List.append_assoc, List.singleton_append] at this
    rw [this]
    simpa using hc

/-- C3, at concrete inputs: the probe is true on `"a\r\nb\n"`, and false on
`"a\nb\r\n"`, whose first newline follows the byte `a`. -/
theorem useCRLF_first_newline_witness :
    useCRLF (ascii "a\r\nb\n") = true ∧ useCRLF (ascii "a\nb\r\n") = false :=
  ⟨(useCRLF_first_newline (ascii "a\r\nb\n")).1.mpr
      ⟨ascii "a", ascii "b\n", by decide, by decide⟩,
    (useCRLF_first_newline (ascii "a\nb\r\n")).2.2.2.2 [] 97 (ascii "b\r\n")
      (by decide) (by decide) (by decide) (by decide)⟩

/-- C4: when the parser rejects the CRLF-normalized source, `Format` returns
a zero-length result together with that parser error, whatever the renderer
is: the renderer has no part in the result. -/
theorem format_parse_failure {ε ν : Type} (parse : List Byte → Except ε ν)
    (render : Config → ν → List Byte) (src : List Byte) (e : ε)
    (h : parse (normalize src) = .error e) :
    Format parse render src = ([], some e) ∧
    (Format parse render src).1.length = 0 ∧
    ∀ render2 : Config → ν → List Byte, Format parse render2 src = Format parse render src := by
  have h1 := format_error parse render src e h
  refine ⟨h1, by rw [h1]; rfl, ?_⟩
  intro render2
  rw [h1, format_error parse render2 src e h]

/-- C4 at the source `"a = \n"` with a parser that rejects it. -/
theorem format_parse_failure_witness :
    strictParse (normalize (ascii "a = \n")) = .error .parseError ∧
    Format strictParse verbatimRender (ascii "a = \n") = ([], some .parseError) :=
  ⟨by rfl,
    (format_parse_failure strictParse verbatimRender (ascii "a = \n") .parseError
      (by rfl)).1⟩

/-- C6, as stated, fails: the normalized form of `"\r\r\n"` is `"\r\n"`, which
still contains a CRLF pair. -/
theorem normalize_keeps_crlf :
    normalize (ascii "\r\r\n") = ascii "\r\n" ∧ HasCRLF (normalize (ascii "\r\r\n")) := by
  decide

/-- C6, amended: the text handed to the parser contains no `"\r\n"` pair
exactly when the source contains no `"\r\r\n"`, and it equals the source
whenever the source contains no `"\r\n"` pair. -/
theorem normalize_crlf_free (src : List Byte) :
    (¬ HasCRLF (normalize src) ↔ ¬ HasCRCRLF src) ∧
    (¬ HasCRLF src → normalize src = src) :=
  ⟨not_congr (hasCRLF_normalize src), normalize_eq_self src⟩

/-- C6, amended, at `"a\r\nb\r\n"` (no `"\r\r\n"`) and at `"a\nb\r"` (no CRLF pair). -/
theorem normalize_crlf_free_witness :
    ¬ HasCRLF (normalize (ascii "a\r\nb\r\n")) ∧ normalize (ascii "a\nb\r") = ascii "a\nb\r" :=
  ⟨(normalize_crlf_free (ascii "a\r\nb\r\n")).1.mpr (by decide),
    (normalize_crlf_free (ascii "a\nb\r")).2 (by decide)⟩

/-- C9: replacing every `"\n"` of `out` by `"\r\n"` and then every `"\r\n"` by
`"\n"` gives back `out`, also when `out` already contains `'\r'` bytes; hence
normalizing a CRLF result of `Format` gives the LF text of the first run, the
renderer's bytes followed by `"\n"`. -/
theorem normalize_undoes_restore {ε ν : Type} (out : List Byte) :
    bytes.Replace (bytes.Replace out [LF] [CR, LF] (-1)) [CR, LF] [LF] (-1) = out ∧
    ∀ (parse : List Byte → Except ε ν) (render : Config → ν → List Byte)
      (src : List Byte) (node : ν),
      parse (normalize src) = .ok node → useCRLF src = true →
      render DefaultConfig node ++ [LF] = out →
      normalize (Format parse render src).1 = out := by
  refine ⟨normalize_restore out, ?_⟩
  intro parse render src node hn hc ho
  rw [format_ok parse render src node hn, hc, ho]
  exact normalize_restore out

/-- C9 at `"a\r\n\r"`, a text with `'\r'` bytes of its own, and at the CRLF
source `"a\r\nb\n"` formatted with the stand-in parser and renderer. -/
theorem normalize_undoes_restore_witness :
    normalize (restore (ascii "a\r\n\r\n")) = ascii "a\r\n\r\n" ∧
    normalize (Format verbatimParse verbatimRender (ascii "a\r\nb\n")).1 = ascii "a\nb\n" :=
  ⟨(@normalize_undoes_restore SampleError (List Byte) (ascii "a\r\n\r\n")).1,
    (normalize_undoes_restore (ascii "a\nb\n")).2 verbatimParse verbatimRender
      (ascii "a\r\nb\n") (ascii "a\nb\n") (by rfl) (by decide) (by decide)⟩

/-- C7: when the parser accepts the normalized source, let `out` be the
renderer's bytes followed by one `"\n"`.  If `useCRLF src` is true, `Format`
returns `out` with every `'\n'` replaced by `"\r\n"`: every `'\n'` of the result
is immediately preceded by `'\r'` and the number of `'\n'` bytes is that of
`out`.  If `useCRLF src` is false, `Format` returns `out` unchanged. -/
theorem format_restores_line_endings {ε ν : Type} (parse : List Byte → Except ε ν)
    (render : Config → ν → List Byte) (src : List Byte) (node : ν)
    (h : parse (normalize src) = .ok node) :
    (useCRLF src = true →
      Format parse render src
        = (bytes.Replace (render DefaultConfig node ++ [LF]) [LF] [CR, LF] (-1), none) ∧
      (Format parse render src).1
        = (render DefaultConfig node ++ [LF]).flatMap (fun b => if b = LF then [CR, LF] else [b]) ∧
      LFAfterCR (Format parse render src).1 ∧
      (Format parse render src).1.count LF = (render DefaultConfig node ++ [LF]).count LF) ∧
    (useCRLF src = false →
      Format parse render src = (render DefaultConfig node ++ [LF], none)) := by
  constructor
  · intro hc
    have hf : Format parse render src = (restore (render DefaultConfig node ++ [LF]), none) := by
      rw [format_ok parse render src node h, hc]
      rfl
    rw [hf]
    exact ⟨rfl, restore_eq_flatMap _, lfAfterCR_restore _, count_lf_restore _⟩
  · intro hc
    rw [format_ok parse render src node h, hc]
    rfl

/-- C7 at `"a = 1\r\nb = 2\n"`, whose first newline is CRLF and whose second is
a bare LF: with the stand-in parser and renderer the result has CRLF on both
lines. -/
theorem format_restores_line_endings_witness :
    useCRLF (ascii "a = 1\r\nb = 2\n") = true ∧
    Format verbatimParse verbatimRender (ascii "a = 1\r\nb = 2\n")
      = (ascii "a = 1\r\nb = 2\r\n", none) :=
  ⟨by decide,
    ((format_restores_line_endings verbatimParse verbatimRender (ascii "a = 1\r\nb = 2\n")
      (ascii "a = 1\nb = 2\n") (by rfl)).1 (by decide)).1.trans (by decide)⟩

/-- C10: when `Format` succeeds on `src` with result `out`, a true CRLF probe
of `src` gives a true CRLF probe of `out`, and a false CRLF probe of `src`
together with renderer bytes free of `'\r'` gives a false CRLF probe of `out`. -/
theorem useCRLF_stable {ε ν : Type} (parse : List Byte → Except ε ν)
    (render : Config → ν → List Byte) (src out : List Byte)
    (hs : Format parse render src = (out, none)) :
    (useCRLF src = true → useCRLF out = true) ∧
    (useCRLF src = false →
      (∀ node, parse (normalize src) = .ok node → CR ∉ render DefaultConfig node) →
      useCRLF out = false) := by
  obtain ⟨node, hn⟩ := format_success parse render src out hs
  rw [format_ok parse render src node hn] at hs
  constructor
  · intro hc
    rw [hc] at hs
    have ho : out = restore (render DefaultConfig node ++ [LF]) := by
      simpa using (congrArg Prod.fst hs).symm
    rw [ho]
    exact useCRLF_of_lfAfterCR _ (lf_mem_restore _ (by simp)) (lfAfterCR_restore _)
  · intro hc hcr
    rw [hc] at hs
    have ho : out = render DefaultConfig node ++ [LF] := by
      simpa using (congrArg Prod.fst hs).symm
    rw [ho]
    cases hu : useCRLF (render DefaultConfig node ++ [LF]) with
    | false => rfl
    | true =>
      obtain ⟨pre, post, hsplit, _⟩ := (useCRLF_iff _).mp hu
      have hmem : CR ∈ render DefaultConfig node ++ [LF] := by
        rw [hsplit]
        simp
      rcases List.mem_append.mp hmem with h1 | h1
      · exact absurd h1 (hcr node hn)
      · exact absurd (List.mem_singleton.mp h1) CR_ne_LF

/-- C10 at the CRLF source `"a\r\nb\n"` and at the LF source `"a\nb\n"`, with
the stand-in parser and renderer. -/
theorem useCRLF_stable_witness :
    useCRLF (ascii "a\r\nb\r\n") = true ∧ useCRLF (ascii "a\nb\n") = false :=
  ⟨(useCRLF_stable verbatimParse verbatimRender (ascii "a\r\nb\n") (ascii "a\r\nb\r\n")
      (by decide)).1 (by decide),
    (useCRLF_stable verbatimParse verbatimRender (ascii "a\nb\n") (ascii "a\nb\n")
      (by decide)).2 (by decide) (by
        intro node hn
        have : node = ascii "a\nb\n" := by
          have h2 : verbatimParse (normalize (ascii "a\nb\n")) = .ok (ascii "a\nb\n") := by rfl
          rw [h2] at hn
          exact (Except.ok.inj hn).symm
        subst this
        decide)⟩

/-- C8: `Config.Fprint` returns an error exactly when the single `Write` of
the rendered bytes fails, or that `Write` succeeds, the sink is a tabwriter and
its `Flush` fails; a failed `Write` has its error returned unchanged and no
`Flush` follows it.  With the in-memory buffer of `Format` the `Fprint` step
returns no error, so `Format` returns an error only when the parser does, and
then that error. -/
theorem fprint_fails_only_on_sink {σ ε ν : Type} (render : Config → ν → List Byte)
    (c : Config) (w : Writer σ ε) (s : σ) (node : ν) :
    ((c.Fprint render w s node).err ≠ none ↔
      (w.Write s (render c node)).2 ≠ none ∨
      ((w.Write s (render c node)).2 = none ∧
        ∃ fl, w.Flush = some fl ∧ (fl (w.Write s (render c node)).1).2 ≠ none)) ∧
    (∀ e, (w.Write s (render c node)).2 = some e →
      (c.Fprint render w s node).err = some e ∧
      (c.Fprint render w s node).calls = [.write (render c node)] ∧
      (c.Fprint render w s node).sink = (w.Write s (render c node)).1) ∧
    ((c.Fprint render w s node).calls = [.write (render c node)] ∨
      (c.Fprint render w s node).calls = [.write (render c node), .flush]) ∧
    (∀ buf : List Byte, (c.Fprint render (bufferWriter ε) buf node).err = none) ∧
    (∀ (parse : List Byte → Except ε ν) (src : List Byte) (e : ε),
      (Format parse render src).2 = some e ↔ parse (normalize src) = .error e) := by
  refine ⟨?_, ?_, ?_, ?_, ?_⟩
  · rcases hw : w.Write s (render c node) with ⟨s1, _ | e⟩
    · cases hf : w.Flush with
      | none => simp [fprint_unflushed render c w s s1 node hw hf]
      | some fl => simp [fprint_flushed render c w s s1 node fl hw hf]
    · simp [fprint_write_failed render c w s s1 node e hw]
  · intro e he
    rcases hw : w.Write s (render c node) with ⟨s1, _ | e2⟩
    · rw [hw] at he
      simp at he
    · rw [hw] at he
      have he2 : e2 = e := by simpa using he
      subst he2
      simp [fprint_write_failed render c w s s1 node e2 hw]
  · rcases hw : w.Write s (render c node) with ⟨s1, _ | e⟩
    · cases hf : w.Flush with
      | none => simp [fprint_unflushed render c w s s1 node hw hf]
      | some fl => simp [fprint_flushed render c w s s1 node fl hw hf]
    · simp [fprint_write_failed render c w s s1 node e hw]
  · intro buf
    rw [fprint_buffer]
  · intro parse src e
    cases hp : parse (normalize src) with
    | error e2 =>
      rw [format_error parse render src e2 hp]
      simp
    | ok node2 =>
      rw [format_ok parse render src node2 hp]
      simp

/-- C8 with a tabwriter whose `Write` fails: the write error is returned and
the only call on the sink is that `Write`. -/
theorem fprint_fails_only_on_sink_witness :
    (DefaultConfig.Fprint verbatimRender brokenTabwriter [] (ascii "a = 1\n")).err
      = some .writeError ∧
    (DefaultConfig.Fprint verbatimRender brokenTabwriter [] (ascii "a = 1\n")).calls
      = [.write (ascii "a = 1")] :=
  have h := (fprint_fails_only_on_sink verbatimRender DefaultConfig brokenTabwriter []
    (ascii "a = 1\n")).2.1 .writeError (by rfl)
  ⟨h.1, h.2.1.trans (by decide)⟩

/-- C2, as stated, fails in its LF half: the source `"# c\r"` contains no
`"\r\n"` pair; when its printed text is `"# c\r\n"`, the comment with its
dangling `'\r'` and the newline that ends a comment line, `Format` returns
`"# c\r\n\n"`, which contains a `"\r\n"` pair. -/
theorem format_lf_source_crlf_result :
    ¬ HasCRLF (ascii "# c\r") ∧
    Format acceptAll (printing (ascii "# c\r\n")) (ascii "# c\r")
      = (ascii "# c\r\n\n", none) ∧
    HasCRLF (ascii "# c\r\n\n") := by
  decide

/-- C2, amended: when `Format` succeeds on `src` with result `out`, (1) if
`src` contains a `'\n'` and every `'\n'` of `src` is immediately preceded by
`'\r'`, the same holds of every `'\n'` of `out`; (2) if `src` contains no
`"\r\n"` pair, `out` is exactly the renderer's bytes followed by `"\n"`, with
no `'\r'` inserted, and so contains no `"\r\n"` pair when the renderer's bytes
contain no `'\r'`; (3) for `src = "a = 1 // c\r\n"`, if the renderer prints
the node of `"a = 1 // c\n"` as `"a = 1 // c"`, then `out` is
`"a = 1 // c\r\n"`. -/
theorem format_line_ending_round_trip {ε ν : Type} (parse : List Byte → Except ε ν)
    (render : Config → ν → List Byte) (src out : List Byte)
    (hs : Format parse render src = (out, none)) :
    (LF ∈ src → LFAfterCR src → LFAfterCR out) ∧
    (¬ HasCRLF src →
      (∀ node, parse (normalize src) = .ok node →
        out = render DefaultConfig node ++ [LF]) ∧
      ((∀ node, parse (normalize src) = .ok node → CR ∉ render DefaultConfig node) →
        ¬ HasCRLF out)) ∧
    (src = ascii "a = 1 // c\r\n" →
      (∀ node, parse (ascii "a = 1 // c\n") = .ok node →
        render DefaultConfig node = ascii "a = 1 // c") →
      out = ascii "a = 1 // c\r\n") := by
  obtain ⟨node, hn⟩ := format_success parse render src out hs
  rw [format_ok parse render src node hn] at hs
  refine ⟨?_, ?_, ?_⟩
  · intro hm hl
    rw [useCRLF_of_lfAfterCR src hm hl] at hs
    have ho : out = restore (render DefaultConfig node ++ [LF]) := by
      simpa using (congrArg Prod.fst hs).symm
    rw [ho]
    exact lfAfterCR_restore _
  · intro hfree
    rw [useCRLF_of_crlf_free src hfree] at hs
    have ho : out = render DefaultConfig node ++ [LF] := by
      simpa using (congrArg Prod.fst hs).symm
    constructor
    · intro node2 hn2
      rw [hn] at hn2
      rw [← Except.ok.inj hn2]
      exact ho
    · intro hcr hpair
      rw [ho] at hpair
      rcases List.mem_append.mp (cr_mem_of_hasCRLF _ hpair) with h1 | h1
      · exact hcr node hn h1
      · exact CR_ne_LF (List.mem_singleton.mp h1)
  · intro hsrc hr
    subst hsrc
    have hnorm : normalize (ascii "a = 1 // c\r\n") = ascii "a = 1 // c\n" := by decide
    rw [hnorm] at hn
    have hc : useCRLF (ascii "a = 1 // c\r\n") = true := by decide
    rw [hc, hr node hn] at hs
    have ho : out = restore (ascii "a = 1 // c" ++ [LF]) := by
      simpa using (congrArg Prod.fst hs).symm
    rw [ho]
    decide

/-- C2, amended, at `"a = 1 // c\r\n"` with the stand-in parser and renderer. -/
theorem format_line_ending_round_trip_witness :
    LFAfterCR (ascii "a = 1 // c\r\n") ∧
    Format verbatimParse verbatimRender (ascii "a = 1 // c\r\n")
      = (ascii "a = 1 // c\r\n", none) :=
  ⟨(format_line_ending_round_trip verbatimParse verbatimRender (ascii "a = 1 // c\r\n")
      (ascii "a = 1 // c\r\n") (by decide)).1 (by decide) (by decide),
    by decide⟩

/-- C5, as stated, fails: when the printed text of the source `"# c"` is
`"# c\n"`, the comment with the newline that ends a comment line, `Format`
appends one more `"\n"` and returns `"# c\n\n"`: the bytes before the final
terminator end with a line terminator themselves. -/
theorem format_double_newline :
    Format acceptAll (printing (ascii "# c\n")) (ascii "# c") = (ascii "# c\n\n", none) ∧
    ascii "# c\n\n" = ascii "# c\n" ++ terminator (ascii "# c") ∧
    EndsWithLF (ascii "# c\n") ∧
    ¬ ∃ body, (Format acceptAll (printing (ascii "# c\n")) (ascii "# c")).1
        = body ++ terminator (ascii "# c") ∧ ¬ EndsWithLF body := by
  refine ⟨by decide, by decide, by decide, ?_⟩
  rintro ⟨body, h1, h2⟩
  have hf : (Format acceptAll (printing (ascii "# c\n")) (ascii "# c")).1
      = ascii "# c\n" ++ terminator (ascii "# c") := by decide
  rw [hf] at h1
  have hb : body = ascii "# c\n" := (List.append_cancel_right h1).symm
  subst hb
  exact h2 (by decide)

/-- C5, amended: when `Format` succeeds on `src` with result `out`, `out` is
the renderer's bytes (with every `'\n'` turned into `"\r\n"` when `useCRLF src`
is true) followed by one line terminator, `"\n"` or `"\r\n"` by `useCRLF src`,
appended unconditionally; the bytes before that final terminator end with a
line terminator exactly when the renderer's bytes end with `'\n'`. -/
theorem format_trailing_newline {ε ν : Type} (parse : List Byte → Except ε ν)
    (render : Config → ν → List Byte) (src out : List Byte)
    (hs : Format parse render src = (out, none)) :
    ∃ node body, parse (normalize src) = .ok node ∧
      body = (if useCRLF src then restore (render DefaultConfig node)
        else render DefaultConfig node) ∧
      out = body ++ terminator src ∧
      (EndsWithLF body ↔ EndsWithLF (render DefaultConfig node)) := by
  obtain ⟨node, hn⟩ := format_success parse render src out hs
  rw [format_ok parse render src node hn] at hs
  refine ⟨node, _, hn, rfl, ?_, ?_⟩
  · cases hc : useCRLF src with
    | true =>
      rw [hc] at hs
      have ho : out = restore (render DefaultConfig node ++ [LF]) := by
        simpa using (congrArg Prod.fst hs).symm
      rw [ho, restore_append, restore_newline]
      simp [terminator, hc]
    | false =>
      rw [hc] at hs
      have ho : out = render DefaultConfig node ++ [LF] := by
        simpa using (congrArg Prod.fst hs).symm
      rw [ho]
      simp [terminator, hc]
  · cases hc : useCRLF src with
    | true => simpa using endsWithLF_restore (render DefaultConfig node)
    | false => simp

/-- C5, amended, at `"a = 1\r\n"` with the stand-in parser and renderer: the
result is the printed `"a = 1"` followed by the terminator `"\r\n"`. -/
theorem format_trailing_newline_witness :
    ∃ node body, verbatimParse (normalize (ascii "a = 1\r\n")) = .ok node ∧
      body = (if useCRLF (ascii "a = 1\r\n") then restore (verbatimRender DefaultConfig node)
        else verbatimRender DefaultConfig node) ∧
      ascii "a = 1\r\n" = body ++ terminator (ascii "a = 1\r\n") ∧
      (EndsWithLF body ↔ EndsWithLF (verbatimRender DefaultConfig node)) :=
  format_trailing_newline verbatimParse verbatimRender (ascii "a = 1\r\n") (ascii "a = 1\r\n")
    (by decide)

/-- C1, at the source `"# c\r"`: the CRLF probe of the source is false, and
when its printed text is `"# c\r\n"` `Format` returns `"# c\r\n\n"`; the probe of
that result is true while its last `'\n'` follows a `'\n'`, so for every parser
and renderer `Format` of the result is not the result again. -/
theorem format_reformat_differs :
    useCRLF (ascii "# c\r") = false ∧
    Format acceptAll (printing (ascii "# c\r\n")) (ascii "# c\r")
      = (ascii "# c\r\n\n", none) ∧
    useCRLF (ascii "# c\r\n\n") = true ∧
    ∀ (ε ν : Type) (parse : List Byte → Except ε ν) (render : Config → ν → List Byte),
      Format parse render (ascii "# c\r\n\n") ≠ (ascii "# c\r\n\n", none) := by
  refine ⟨by decide, by decide, by decide, ?_⟩
  intro ε ν parse render h
  have hl := format_lfAfterCR_of_probe parse render _ _ h (by decide)
  exact absurd hl (by decide)

end HclPrinter
